import Mathlib

/-!
Shallow embedding of the weight-history reconstruction core of the
calories training tracker (the `loadWeightData` pipeline and
`calculateStats` of the weight-history screen).

Modelling conventions:
* Calendar dates are day numbers (`Nat`); the day range enumeration
  `while (currentDate <= now) push; ++day` becomes `List.range'`.
* A JS value that may be `null`/`undefined` becomes an `Option`.
  A log entry's `date` is `Option Nat` (the source filters out entries
  with a falsy date before building the map); its `weight` is `Option ℚ`.
* Decimal weights are rationals (`ℚ`).
* The `Map` keyed by date becomes a function `Nat → Option LogEntry`
  built by the same left fold of `set` operations.
* The display label (`formattedDate`, a pure formatting of the date) is
  not modelled; no property depends on it.
-/

/-- A daily log entry as delivered by `getDailyLogs`: an optional date
key and an optional recorded weight. -/
structure LogEntry where
  date : Option Nat
  weight : Option ℚ
deriving DecidableEq, Repr

/-- An intermediate point of the pipeline (step 1 / step 2): the day,
its (possibly still unresolved) weight and the `hasActualWeight` flag. -/
structure InitialPoint where
  date : Nat
  weight : Option ℚ
  hasActualWeight : Bool
deriving DecidableEq, Repr

/-- A point of the emitted series (after step 3); the weight is still
`Option ℚ` here because the step-3 map can produce a null weight, which
the final filter then removes. -/
structure PrePoint where
  date : Nat
  weight : Option ℚ
deriving DecidableEq, Repr

/-- The map from date to log entry:
`logs.filter(log => log.date).forEach(log => logsByDate.set(log.date, log))`,
last `set` wins. -/
def logsByDate (logs : List LogEntry) : Nat → Option LogEntry :=
  (logs.filter (fun l => l.date.isSome)).foldl
    (fun m l => fun d => if l.date = some d then some l else m d)
    (fun _ => none)

/-- The enumerated days of the selected range:
`while (currentDate <= now) { push(currentDate); currentDate++ }`.
For `startDate > endDate` the loop body never runs and the list is empty,
which `List.range'` with truncated subtraction reproduces. -/
def allDaysInRange (startDate endDate : Nat) : List Nat :=
  List.range' startDate (endDate + 1 - startDate)

/-- Step 1: one candidate point per day; the weight is the log's weight
when a log for the day exists and its weight is neither undefined nor
null, and null otherwise; `hasActualWeight` records exactly that test. -/
def initialPoints (startDate endDate : Nat) (logs : List LogEntry) : List InitialPoint :=
  (allDaysInRange startDate endDate).map (fun d =>
    let log := logsByDate logs d
    let w : Option ℚ := match log with
      | some l => l.weight
      | none => none
    { date := d, weight := w, hasActualWeight := w.isSome })

/-- One iteration of the step-2 `forEach` body: the accumulator is the
list of already-processed points together with `lastKnownWeight`. -/
def carryStep (acc : List InitialPoint × Option ℚ) (p : InitialPoint) :
    List InitialPoint × Option ℚ :=
  if p.hasActualWeight then
    (acc.1 ++ [p], p.weight)
  else
    match acc.2 with
    | some w => (acc.1 ++ [{ p with weight := some w }], some w)
    | none => (acc.1 ++ [p], none)

/-- Step 2: `[...initialPoints].reverse()` followed by the carrying
`forEach` with `lastKnownWeight` starting at null; the result is the
mutated reversed array (newest day first). -/
def reversedPoints (startDate endDate : Nat) (logs : List LogEntry) : List InitialPoint :=
  (((initialPoints startDate endDate logs).reverse).foldl carryStep ([], none)).1

/-- Step 3: reverse back to ascending order, substitute `defaultWeight`
for a still-null weight, and filter out points whose weight is still
null or undefined. -/
def weightPoints (startDate endDate : Nat) (logs : List LogEntry)
    (defaultWeight : Option ℚ) : List PrePoint :=
  (((reversedPoints startDate endDate logs).reverse).map (fun p =>
    { date := p.date,
      weight := match p.weight with
        | some w => some w
        | none => defaultWeight : PrePoint }))
  |>.filter (fun p => p.weight.isSome)

/-- The coercion `setDefaultWeight(userProfile?.weight || null)`: a fetched profile
weight of `0` is falsy in JS and is coerced to null. -/
def coerceProfileWeight (w : Option ℚ) : Option ℚ :=
  match w with
  | some x => if x = 0 then none else some x
  | none => none

/-- The whole `loadWeightData` data path, as a function of the fetched
inputs: the profile weight is coerced by `|| null` and then used as the
fallback of the three-pass pipeline. -/
def loadWeightData (startDate endDate : Nat) (logs : List LogEntry)
    (profileWeight : Option ℚ) : List PrePoint :=
  weightPoints startDate endDate logs (coerceProfileWeight profileWeight)

/-- The trend of `calculateStats`. -/
inductive Trend where
  | up
  | down
  | neutral
deriving DecidableEq, Repr

/-- The record returned by `calculateStats`. -/
structure Stats where
  startWeight : ℚ
  endWeight : ℚ
  change : ℚ
  trend : Trend
deriving DecidableEq, Repr

/-- The statistics `calculateStats` over the `weightData` state (the emitted series):
`weightData[0]?.weight || 0`, `weightData[length-1]?.weight || 0`,
`change = end - start`, trend by the sign of `change`, absolute change.
In the rational model `x || 0` is `getD 0` on the optional chain (`0`
itself is mapped to `0` either way, and there is no NaN). -/
def calculateStats (weightData : List PrePoint) : Stats :=
  if weightData.length = 0 then
    { startWeight := 0, endWeight := 0, change := 0, trend := .neutral }
  else
    let startWeight := ((weightData.get? 0).bind PrePoint.weight).getD 0
    let endWeight := ((weightData.get? (weightData.length - 1)).bind PrePoint.weight).getD 0
    let change := endWeight - startWeight
    let trend := if change < 0 then Trend.down
      else if change > 0 then Trend.up else Trend.neutral
    { startWeight := startWeight, endWeight := endWeight,
      change := |change|, trend := trend }

/-! ## Specification-side helper functions

These formalise the vocabulary of the specification ("anchored",
"nearest later anchored day", "resolves to a weight") and are used only
in theorem statements and proofs; the pipeline above is the embedding of
the source. -/

/-- The anchored weight of a day: the weight recorded by the log entry
the map holds for the day, when present. -/
def anchorWeight (logs : List LogEntry) (d : Nat) : Option ℚ :=
  (logsByDate logs d).bind LogEntry.weight

/-- The weight a day holds after the carry pass, expressed directly:
the anchored weight of the nearest day `d' ∈ [d, e]` that is anchored
(day `d` itself when it is anchored), and null when no such day exists. -/
def carrySpecWeight (logs : List LogEntry) (d e : Nat) : Option ℚ :=
  match (List.range' d (e + 1 - d)).find? (fun x => (anchorWeight logs x).isSome) with
  | some x => anchorWeight logs x
  | none => none

/-- The weight a day resolves to after carry and fallback. -/
def resolvedWeight (logs : List LogEntry) (d e : Nat) (fb : Option ℚ) : Option ℚ :=
  match carrySpecWeight logs d e with
  | some w => some w
  | none => fb

/-! ## Analysis of the carry pass -/

/-- Recursive form of the step-2 fold over the reversed (newest-first)
list, threading `lastKnownWeight` explicitly. -/
def carryDesc (st : Option ℚ) : List InitialPoint → List InitialPoint
  | [] => []
  | p :: rest =>
    if p.hasActualWeight then p :: carryDesc p.weight rest
    else
      match st with
      | some w => { p with weight := some w } :: carryDesc (some w) rest
      | none => p :: carryDesc none rest

lemma foldl_carryStep_eq (l : List InitialPoint) :
    ∀ (acc : List InitialPoint) (st : Option ℚ),
      (l.foldl carryStep (acc, st)).1 = acc ++ carryDesc st l := by
  induction l with
  | nil => intro acc st; simp [carryDesc]
  | cons p rest ih =>
    intro acc st
    by_cases hp : p.hasActualWeight
    · simp [List.foldl_cons, carryStep, hp, carryDesc, ih]
    · cases st with
      | some w => simp [List.foldl_cons, carryStep, hp, carryDesc, ih]
      | none => simp [List.foldl_cons, carryStep, hp, carryDesc, ih]

/-- The filled weight of a day `d` facing the ascending block of days
`[d, d + m)`, with incoming carry state `st` from above the block. -/
def fillWeight (aw : Nat → Option ℚ) (st : Option ℚ) (d m : Nat) : Option ℚ :=
  match (List.range' d m).find? (fun x => (aw x).isSome) with
  | some x => aw x
  | none => st

lemma find?_range'_top (p : Nat → Bool) (d m : Nat) :
    (List.range' d (m + 1)).find? p =
      ((List.range' d m).find? p).or (if p (d + m) then some (d + m) else none) := by
  rw [List.range'_1_concat, List.find?_append]
  congr 1
  by_cases h : p (d + m) <;> simp [h]

lemma fillWeight_one (aw : Nat → Option ℚ) (st : Option ℚ) (x : Nat) :
    fillWeight aw st x 1 = if (aw x).isSome then aw x else st := by
  unfold fillWeight
  rw [List.range'_one]
  by_cases h : (aw x).isSome <;> simp [h]

lemma fillWeight_peel (aw : Nat → Option ℚ) (st : Option ℚ) (x m : Nat) :
    fillWeight aw st x (m + 1) =
      fillWeight aw (if (aw (x + m)).isSome then aw (x + m) else st) x m := by
  unfold fillWeight
  rw [find?_range'_top]
  cases hf : (List.range' x m).find? (fun y => (aw y).isSome) with
  | some y => simp [Option.or]
  | none =>
    by_cases h : (aw (x + m)).isSome <;> simp [h, Option.or]

lemma mem_range1 {m s n : Nat} : m ∈ List.range' s n ↔ s ≤ m ∧ m < s + n := by
  rw [List.mem_range']
  constructor
  · rintro ⟨i, hi, rfl⟩; omega
  · intro h; exact ⟨m - s, by omega, by omega⟩

lemma carryDesc_range' (aw : Nat → Option ℚ) :
    ∀ (k d : Nat) (st : Option ℚ),
      carryDesc st (((List.range' d k).reverse).map
          (fun x => InitialPoint.mk x (aw x) (aw x).isSome)) =
        ((List.range' d k).reverse).map
          (fun x => InitialPoint.mk x (fillWeight aw st x (d + k - x)) (aw x).isSome) := by
  intro k
  induction k with
  | zero => intro d st; simp [carryDesc]
  | succ k ih =>
    intro d st
    rw [List.range'_1_concat]
    simp only [List.reverse_append, List.reverse_cons, List.reverse_nil, List.nil_append,
      List.singleton_append, List.map_cons]
    have htail : ∀ st' : Option ℚ,
        (if (aw (d + k)).isSome then aw (d + k) else st) = st' →
        ((List.range' d k).reverse).map
            (fun x => InitialPoint.mk x (fillWeight aw st' x (d + k - x)) (aw x).isSome) =
          ((List.range' d k).reverse).map
            (fun x => InitialPoint.mk x (fillWeight aw st x (d + (k + 1) - x)) (aw x).isSome) := by
      intro st' hst'
      apply List.map_congr_left
      intro x hx
      rw [List.mem_reverse, mem_range1] at hx
      have h1 : d + (k + 1) - x = (d + k - x) + 1 := by omega
      have h2 : x + (d + k - x) = d + k := by omega
      rw [h1, fillWeight_peel, h2, hst']
    have hhead : fillWeight aw st (d + k) (d + (k + 1) - (d + k)) =
        if (aw (d + k)).isSome then aw (d + k) else st := by
      have h3 : d + (k + 1) - (d + k) = 1 := by omega
      rw [h3, fillWeight_one]
    by_cases h : (aw (d + k)).isSome
    · rw [show carryDesc st
          (InitialPoint.mk (d + k) (aw (d + k)) (aw (d + k)).isSome ::
            ((List.range' d k).reverse).map
              (fun x => InitialPoint.mk x (aw x) (aw x).isSome)) =
          InitialPoint.mk (d + k) (aw (d + k)) (aw (d + k)).isSome ::
            carryDesc (aw (d + k))
              (((List.range' d k).reverse).map
                (fun x => InitialPoint.mk x (aw x) (aw x).isSome)) from by
            simp [carryDesc, h]]
      rw [ih d (aw (d + k))]
      rw [htail (aw (d + k)) (by simp [h])]
      congr 1
      rw [hhead]
      simp [h]
    · cases st with
      | some w =>
        rw [show carryDesc (some w)
            (InitialPoint.mk (d + k) (aw (d + k)) (aw (d + k)).isSome ::
              ((List.range' d k).reverse).map
                (fun x => InitialPoint.mk x (aw x) (aw x).isSome)) =
            InitialPoint.mk (d + k) (some w) (aw (d + k)).isSome ::
              carryDesc (some w)
                (((List.range' d k).reverse).map
                  (fun x => InitialPoint.mk x (aw x) (aw x).isSome)) from by
              simp [carryDesc, h]]
        rw [ih d (some w)]
        rw [htail (some w) (by simp [h])]
        congr 1
        rw [hhead]
        simp [h]
      | none =>
        rw [show carryDesc none
            (InitialPoint.mk (d + k) (aw (d + k)) (aw (d + k)).isSome ::
              ((List.range' d k).reverse).map
                (fun x => InitialPoint.mk x (aw x) (aw x).isSome)) =
            InitialPoint.mk (d + k) (aw (d + k)) (aw (d + k)).isSome ::
              carryDesc none
                (((List.range' d k).reverse).map
                  (fun x => InitialPoint.mk x (aw x) (aw x).isSome)) from by
              simp [carryDesc, h]]
        rw [ih d none]
        rw [htail none (by simp [h])]
        congr 1
        rw [hhead]
        simp [h, Option.not_isSome_iff_eq_none.mp h]

lemma initialPoints_eq (s e : Nat) (logs : List LogEntry) :
    initialPoints s e logs =
      (List.range' s (e + 1 - s)).map
        (fun d => InitialPoint.mk d (anchorWeight logs d) (anchorWeight logs d).isSome) := by
  unfold initialPoints allDaysInRange anchorWeight
  apply List.map_congr_left
  intro d _
  cases logsByDate logs d <;> rfl

/-- Master characterization of the first two passes: the carried list,
read back in ascending order, assigns every day its `carrySpecWeight`
(the nearest anchored value at or after it) and keeps the anchor flag. -/
lemma reversedPoints_reverse_eq (s e : Nat) (logs : List LogEntry) :
    (reversedPoints s e logs).reverse =
      (List.range' s (e + 1 - s)).map
        (fun d => InitialPoint.mk d (carrySpecWeight logs d e) (anchorWeight logs d).isSome) := by
  unfold reversedPoints
  rw [foldl_carryStep_eq, List.nil_append, initialPoints_eq, ← List.map_reverse,
    carryDesc_range' (anchorWeight logs) (e + 1 - s) s none, List.map_reverse,
    List.reverse_reverse]
  apply List.map_congr_left
  intro x hx
  rw [mem_range1] at hx
  have h1 : s + (e + 1 - s) - x = e + 1 - x := by omega
  rw [h1]
  congr 1

/-- Master characterization of the whole pipeline: the emitted series is
the day range, each day paired with its resolved weight, with the days
whose weight is still null filtered out. -/
lemma weightPoints_eq (s e : Nat) (logs : List LogEntry) (fb : Option ℚ) :
    weightPoints s e logs fb =
      ((List.range' s (e + 1 - s)).map
          (fun d => PrePoint.mk d (resolvedWeight logs d e fb))).filter
        (fun p => p.weight.isSome) := by
  unfold weightPoints
  rw [reversedPoints_reverse_eq, List.map_map]
  rfl

/-! ## The date-keyed map: last write wins -/

lemma foldl_set_eq (d : Nat) (logs : List LogEntry) :
    ∀ (m : Nat → Option LogEntry),
      (logs.foldl (fun m l => fun d' => if l.date = some d' then some l else m d') m) d =
        match (logs.filter (fun l => l.date = some d)).getLast? with
        | some l => some l
        | none => m d := by
  induction logs with
  | nil => intro m; rfl
  | cons l rest ih =>
    intro m
    rw [List.foldl_cons, ih]
    by_cases hl : l.date = some d
    · rw [List.filter_cons_of_pos (by simpa using hl)]
      rw [show (l :: rest.filter (fun l => l.date = some d)) =
        [l] ++ rest.filter (fun l => l.date = some d) from rfl]
      rw [List.getLast?_append]
      cases (rest.filter (fun l => l.date = some d)).getLast? with
      | some y => rfl
      | none => simp [Option.or, hl]
    · rw [List.filter_cons_of_neg (by simpa using hl)]
      cases (rest.filter (fun l => l.date = some d)).getLast? with
      | some y => rfl
      | none => simp [hl]

/-- The map keyed by date holds, for each date, the last entry delivered
with that date (entries with an absent date never enter the map). -/
lemma logsByDate_eq_getLast? (logs : List LogEntry) (d : Nat) :
    logsByDate logs d = (logs.filter (fun l => l.date = some d)).getLast? := by
  unfold logsByDate
  rw [foldl_set_eq, List.filter_filter]
  have hpred : ∀ l : LogEntry,
      (decide (l.date = some d) && l.date.isSome) = decide (l.date = some d) := by
    intro l
    by_cases hl : l.date = some d
    · simp [hl]
    · simp [hl]
  rw [List.filter_congr (fun l _ => hpred l)]
  cases (logs.filter (fun l => decide (l.date = some d))).getLast? with
  | some y => rfl
  | none => rfl

/-! ## Congruence: the series depends on the logs only through the
anchored weights of the in-range days -/

lemma find?_congr_on {α : Type} {p q : α → Bool} :
    ∀ (l : List α), (∀ x ∈ l, p x = q x) → l.find? p = l.find? q := by
  intro l
  induction l with
  | nil => intro _; rfl
  | cons a rest ih =>
    intro h
    have ha := h a (List.mem_cons_self a rest)
    by_cases hpa : p a
    · rw [List.find?_cons_of_pos rest hpa, List.find?_cons_of_pos rest (ha ▸ hpa)]
    · rw [List.find?_cons_of_neg rest hpa, List.find?_cons_of_neg rest (fun hq => hpa (ha ▸ hq))]
      exact ih (fun x hx => h x (List.mem_cons_of_mem a hx))

lemma carrySpecWeight_congr (logsA logsB : List LogEntry) (s e d : Nat)
    (hd1 : s ≤ d) (hd2 : d ≤ e)
    (h : ∀ x, s ≤ x → x ≤ e → anchorWeight logsA x = anchorWeight logsB x) :
    carrySpecWeight logsA d e = carrySpecWeight logsB d e := by
  unfold carrySpecWeight
  have hfind : (List.range' d (e + 1 - d)).find? (fun x => (anchorWeight logsA x).isSome) =
      (List.range' d (e + 1 - d)).find? (fun x => (anchorWeight logsB x).isSome) := by
    apply find?_congr_on
    intro x hx
    rw [mem_range1] at hx
    rw [h x (by omega) (by omega)]
  rw [hfind]
  cases hy : (List.range' d (e + 1 - d)).find? (fun x => (anchorWeight logsB x).isSome) with
  | none => rfl
  | some y =>
    have hy' := List.mem_of_find?_eq_some hy
    rw [mem_range1] at hy'
    simp only []
    rw [h y (by omega) (by omega)]

lemma weightPoints_congr (s e : Nat) (logsA logsB : List LogEntry) (fb : Option ℚ)
    (h : ∀ x, s ≤ x → x ≤ e → anchorWeight logsA x = anchorWeight logsB x) :
    weightPoints s e logsA fb = weightPoints s e logsB fb := by
  rw [weightPoints_eq, weightPoints_eq]
  congr 1
  apply List.map_congr_left
  intro d hd
  rw [mem_range1] at hd
  unfold resolvedWeight
  rw [carrySpecWeight_congr logsA logsB s e d (by omega) (by omega) h]

/-! ## Locating the nearest anchored day -/

lemma find?_range'_eq_some (p : Nat → Bool) (c : Nat) (hpc : p c = true) :
    ∀ (m a : Nat), a ≤ c → c < a + m → (∀ y, a ≤ y → y < c → p y = false) →
      (List.range' a m).find? p = some c := by
  intro m
  induction m with
  | zero => intro a h1 h2 _; omega
  | succ m ih =>
    intro a h1 h2 hbelow
    rw [List.range'_succ]
    rcases Nat.eq_or_lt_of_le h1 with heq | hlt
    · subst heq
      exact List.find?_cons_of_pos _ hpc
    · rw [List.find?_cons_of_neg _ (by simp [hbelow a le_rfl hlt])]
      exact ih (a + 1) (by omega) (by omega) (fun y hy1 hy2 => hbelow y (by omega) hy2)

lemma carrySpecWeight_eq_of_nearest (logs : List LogEntry) (d e D : Nat)
    (hd : d ≤ D) (hD : D ≤ e) (hanch : (anchorWeight logs D).isSome)
    (hbetween : ∀ x, d ≤ x → x < D → anchorWeight logs x = none) :
    carrySpecWeight logs d e = anchorWeight logs D := by
  unfold carrySpecWeight
  rw [find?_range'_eq_some (fun x => (anchorWeight logs x).isSome) D (by simpa using hanch)
    (e + 1 - d) d hd (by omega) (fun y hy1 hy2 => by simp [hbetween y hy1 hy2])]

lemma carrySpecWeight_eq_none (logs : List LogEntry) (d e : Nat)
    (h : ∀ x, d ≤ x → x ≤ e → anchorWeight logs x = none) :
    carrySpecWeight logs d e = none := by
  unfold carrySpecWeight
  have hfind : (List.range' d (e + 1 - d)).find? (fun x => (anchorWeight logs x).isSome) =
      none := by
    rw [List.find?_eq_none]
    intro x hx
    rw [mem_range1] at hx
    simp [h x (by omega) (by omega)]
  rw [hfind]

lemma carrySpecWeight_isSome (logs : List LogEntry) (d e D : Nat)
    (hd : d ≤ D) (hD : D ≤ e) (hanch : (anchorWeight logs D).isSome) :
    (carrySpecWeight logs d e).isSome := by
  unfold carrySpecWeight
  cases hf : (List.range' d (e + 1 - d)).find? (fun x => (anchorWeight logs x).isSome) with
  | some y => simpa using List.find?_some hf
  | none =>
    rw [List.find?_eq_none] at hf
    exact absurd (by simpa using hanch)
      (hf D (mem_range1.mpr (by omega)))

/-! ## Membership in the emitted series -/

lemma mem_weightPoints_of_resolved (s e d : Nat) (logs : List LogEntry) (fb : Option ℚ)
    (h1 : s ≤ d) (h2 : d ≤ e) (w : ℚ) (hres : resolvedWeight logs d e fb = some w) :
    PrePoint.mk d (some w) ∈ weightPoints s e logs fb := by
  rw [weightPoints_eq]
  apply List.mem_filter.mpr
  refine ⟨List.mem_map.mpr ⟨d, mem_range1.mpr (by omega), by rw [hres]⟩, rfl⟩

lemma not_mem_weightPoints_of_unresolved (s e d : Nat) (logs : List LogEntry) (fb : Option ℚ)
    (hres : resolvedWeight logs d e fb = none) :
    ∀ p ∈ weightPoints s e logs fb, p.date ≠ d := by
  intro p hp hdate
  rw [weightPoints_eq] at hp
  obtain ⟨hp1, hp2⟩ := List.mem_filter.mp hp
  obtain ⟨d', _, hd'⟩ := List.mem_map.mp hp1
  have hdd : d' = d := by rw [← hdate, ← hd']
  subst hdd
  rw [← hd'] at hp2
  simp only [hres] at hp2
  exact absurd hp2 (by simp)

lemma anchorWeight_eq_getLast? (logs : List LogEntry) (d : Nat) :
    anchorWeight logs d =
      ((logs.filter (fun l => l.date = some d)).getLast?).bind LogEntry.weight := by
  unfold anchorWeight
  rw [logsByDate_eq_getLast?]

/-! ## Claims -/

/-- C1: Backward carry-forward fill — after the carry pass, every
unanchored day `d` of `[startDate, endDate]` holds the weight of the
nearest strictly later in-range day that is anchored, and stays
unresolved (null weight) when no later in-range day is anchored; with a
single anchored day `N`, all days before `N` therefore receive `N`'s
weight and days after `N` stay unresolved. -/
theorem carry_backward_fill (s e : Nat) (logs : List LogEntry) (d : Nat)
    (hs : s ≤ d) (he : d ≤ e) (hun : anchorWeight logs d = none) :
    (∀ D, d < D → D ≤ e → (anchorWeight logs D).isSome →
      (∀ x, d < x → x < D → anchorWeight logs x = none) →
      ((reversedPoints s e logs).reverse[d - s]?).map InitialPoint.weight =
        some (anchorWeight logs D)) ∧
    ((∀ D, d < D → D ≤ e → anchorWeight logs D = none) →
      ((reversedPoints s e logs).reverse[d - s]?).map InitialPoint.weight =
        some none) := by
  rw [reversedPoints_reverse_eq, List.getElem?_map,
    List.getElem?_range' s 1 (show d - s < e + 1 - s by omega)]
  have hd : s + 1 * (d - s) = d := by omega
  rw [hd]
  constructor
  · intro D hD1 hD2 hD3 hD4
    simp only [Option.map_some']
    congr 1
    exact carrySpecWeight_eq_of_nearest logs d e D (by omega) hD2 hD3
      (fun x hx1 hx2 => by
        rcases Nat.eq_or_lt_of_le hx1 with heq | hlt
        · exact heq ▸ hun
        · exact hD4 x hlt hx2)
  · intro hnone
    simp only [Option.map_some']
    congr 1
    exact carrySpecWeight_eq_none logs d e
      (fun x hx1 hx2 => by
        rcases Nat.eq_or_lt_of_le hx1 with heq | hlt
        · exact heq ▸ hun
        · exact hnone x hlt hx2)

/-- Witness for C1 at a concrete input: range `[0, 3]`, a single anchor
`80` on day `2`; the unanchored day `1` receives day `2`'s weight. -/
theorem carry_backward_fill_witness :
    ((reversedPoints 0 3 [⟨some 2, some 80⟩]).reverse[1]?).map InitialPoint.weight =
      some (anchorWeight [⟨some 2, some 80⟩] 2) :=
  (carry_backward_fill 0 3 [⟨some 2, some 80⟩] 1 (by decide) (by decide) (by decide)).1
    2 (by decide) (by decide) (by decide) (fun x hx1 hx2 => by omega)

/-- C2: Non-null output invariant with fallback-else-drop — every point
of the returned series has a populated weight; a day left unresolved by
the carry pass is emitted with `fallbackWeight` when that is present and
is dropped from the series when it is absent. -/
theorem weight_always_populated (s e : Nat) (logs : List LogEntry) (fb : Option ℚ) :
    (∀ p ∈ weightPoints s e logs fb, p.weight.isSome) ∧
    (∀ d, s ≤ d → d ≤ e → carrySpecWeight logs d e = none →
      (∀ w, fb = some w → PrePoint.mk d (some w) ∈ weightPoints s e logs fb) ∧
      (fb = none → ∀ p ∈ weightPoints s e logs fb, p.date ≠ d)) := by
  constructor
  · intro p hp
    rw [weightPoints_eq] at hp
    exact (List.mem_filter.mp hp).2
  · intro d h1 h2 hnone
    constructor
    · intro w hfb
      apply mem_weightPoints_of_resolved s e d logs fb h1 h2 w
      unfold resolvedWeight
      rw [hnone, hfb]
    · intro hfb
      apply not_mem_weightPoints_of_unresolved s e d logs fb
      unfold resolvedWeight
      rw [hnone, hfb]

/-- Witness for C2 at a concrete input: with no logs and fallback `75`,
the unresolved day `1` of `[0, 2]` is emitted with the fallback. -/
theorem weight_always_populated_witness :
    PrePoint.mk 1 (some 75) ∈ weightPoints 0 2 [] (some 75) :=
  ((weight_always_populated 0 2 [] (some 75)).2 1 (by decide) (by decide) (by decide)).1
    75 rfl

/-- C3: `calculateStats` postcondition — the empty series yields
`{0, 0, 0, neutral}`; a non-empty series yields the first point's
weight, the last point's weight, the absolute difference, and the trend
given by the sign of `end - start`. -/
theorem calculateStats_spec :
    calculateStats [] = ⟨0, 0, 0, Trend.neutral⟩ ∧
    ∀ (wd : List PrePoint) (hne : wd ≠ []) (a b : ℚ),
      (wd.head hne).weight = some a → (wd.getLast hne).weight = some b →
      calculateStats wd =
        ⟨a, b, |b - a|,
          if b - a < 0 then Trend.down
          else if b - a > 0 then Trend.up else Trend.neutral⟩ := by
  constructor
  · rfl
  · intro wd hne a b ha hb
    unfold calculateStats
    rw [if_neg (by simpa using hne)]
    rw [List.get?_zero, List.head?_eq_head hne, List.get?_eq_getElem?,
      ← List.getLast?_eq_getElem?, List.getLast?_eq_getLast wd hne]
    simp only [Option.some_bind, ha, hb, Option.getD_some]

/-- Witness for C3 at a concrete input: the series `[72, 70]` yields
start `72`, end `70`, absolute change `2` and a downward trend. -/
theorem calculateStats_spec_witness :
    calculateStats [⟨0, some 72⟩, ⟨1, some 70⟩] = ⟨72, 70, 2, Trend.down⟩ := by
  have h := calculateStats_spec.2 [⟨0, some 72⟩, ⟨1, some 70⟩]
    (by decide) 72 70 rfl rfl
  rw [h]
  norm_num

/-- C4: Length bound — for a valid range the series has at most
`endDate - startDate + 1` points, with equality exactly when every day
of the range resolves to a weight (anchor, carry or fallback). -/
theorem series_length_bound (s e : Nat) (logs : List LogEntry) (fb : Option ℚ)
    (h : s ≤ e) :
    (weightPoints s e logs fb).length ≤ e - s + 1 ∧
    ((weightPoints s e logs fb).length = e - s + 1 ↔
      ∀ d, s ≤ d → d ≤ e → (resolvedWeight logs d e fb).isSome) := by
  rw [weightPoints_eq]
  have hn : ((List.range' s (e + 1 - s)).map
      (fun d => PrePoint.mk d (resolvedWeight logs d e fb))).length = e - s + 1 := by
    rw [List.length_map, List.length_range']
    omega
  constructor
  · calc (List.filter _ _).length
        ≤ ((List.range' s (e + 1 - s)).map
            (fun d => PrePoint.mk d (resolvedWeight logs d e fb))).length :=
          List.length_filter_le _ _
      _ = e - s + 1 := hn
  · rw [← hn, List.filter_length_eq_length]
    constructor
    · intro hall d hd1 hd2
      have := hall (PrePoint.mk d (resolvedWeight logs d e fb))
        (List.mem_map.mpr ⟨d, mem_range1.mpr (by omega), rfl⟩)
      simpa using this
    · intro hall p hp
      obtain ⟨d, hd, rfl⟩ := List.mem_map.mp hp
      rw [mem_range1] at hd
      simpa using hall d (by omega) (by omega)

/-- Witness for C4 at a concrete input: range `[0, 1]`, no logs and a
present fallback; the bound holds (and is attained). -/
theorem series_length_bound_witness :
    (weightPoints 0 1 [] (some 75)).length ≤ 1 - 0 + 1 :=
  (series_length_bound 0 1 [] (some 75) (by decide)).1

/-- With a duplicate date, removing a null-weight entry can change the
output: the null entry delivered last shadows an earlier anchored entry
for the same day. -/
theorem null_entry_removal_cex :
    weightPoints 0 0 [⟨some 0, some 70⟩, ⟨some 0, none⟩] none ≠
      weightPoints 0 0 [⟨some 0, some 70⟩] none := by decide

lemma anchorWeight_null_entry (l1 l2 : List LogEntry) (entry : LogEntry)
    (hw : entry.weight = none) (hunique : ∀ l ∈ l1 ++ l2, l.date ≠ entry.date) (x : Nat) :
    anchorWeight (l1 ++ entry :: l2) x = anchorWeight (l1 ++ l2) x := by
  rw [anchorWeight_eq_getLast?, anchorWeight_eq_getLast?, List.filter_append,
    List.filter_append, List.filter_cons]
  by_cases hx : entry.date = some x
  · have h1 : l1.filter (fun l => l.date = some x) = [] := by
      rw [List.filter_eq_nil_iff]
      intro l hl
      simpa [hx] using hunique l (List.mem_append_left l2 hl)
    have h2 : l2.filter (fun l => l.date = some x) = [] := by
      rw [List.filter_eq_nil_iff]
      intro l hl
      simpa [hx] using hunique l (List.mem_append_right l1 hl)
    rw [h1, h2, if_pos (by simpa using hx)]
    simp [hw]
  · rw [if_neg (by simpa using hx)]

/-- C5 (amended): a log entry with an absent or null weight never
anchors its day and never acts as a recorded weight of zero; when no
other delivered entry shares its date, the output is the same as if the
entry had not been delivered at all. (As stated over all inputs the
claim fails: with a duplicate date, see `null_entry_removal_cex`, the
null entry can shadow an anchored entry delivered earlier.) -/
theorem null_entry_not_anchor (s e : Nat) (l1 l2 : List LogEntry) (entry : LogEntry)
    (fb : Option ℚ) (hw : entry.weight = none)
    (hunique : ∀ l ∈ l1 ++ l2, l.date ≠ entry.date) :
    weightPoints s e (l1 ++ entry :: l2) fb = weightPoints s e (l1 ++ l2) fb ∧
    ∀ d, entry.date = some d → anchorWeight (l1 ++ entry :: l2) d = none := by
  constructor
  · exact weightPoints_congr s e _ _ fb
      (fun x _ _ => anchorWeight_null_entry l1 l2 entry hw hunique x)
  · intro d hd
    rw [anchorWeight_null_entry l1 l2 entry hw hunique d, anchorWeight_eq_getLast?]
    have h0 : (l1 ++ l2).filter (fun l => l.date = some d) = [] := by
      rw [List.filter_eq_nil_iff]
      intro l hl
      simpa [hd] using hunique l hl
    rw [h0]
    rfl

/-- Witness for C5 (amended) at a concrete input: the null-weight entry
for day `0` can be removed without changing the series, no other entry
sharing its date. -/
theorem null_entry_not_anchor_witness :
    weightPoints 0 1 [⟨some 1, some 70⟩, ⟨some 0, none⟩] (some 75) =
      weightPoints 0 1 [⟨some 1, some 70⟩] (some 75) :=
  (null_entry_not_anchor 0 1 [⟨some 1, some 70⟩] [] ⟨some 0, none⟩ (some 75)
    rfl (by decide)).1

/-- C6: Duplicate-date resolution is last-seen-wins — after the entry
`b` is delivered last, the map consults `b` for `b`'s date, overwriting
whatever earlier entries (duplicates included) had set there, and leaves
every other date unchanged. The embedded pipeline is a total function,
so no delivery order can make it raise. -/
theorem last_seen_wins (logs : List LogEntry) (b : LogEntry) (d : Nat) :
    logsByDate (logs ++ [b]) d =
      if b.date = some d then some b else logsByDate logs d := by
  rw [logsByDate_eq_getLast?, logsByDate_eq_getLast?, List.filter_append]
  by_cases hb : b.date = some d
  · rw [if_pos hb, List.filter_cons, if_pos (by simpa using hb), List.filter_nil,
      List.getLast?_append]
    rfl
  · rw [if_neg hb, List.filter_cons, if_neg (by simpa using hb), List.filter_nil,
      List.append_nil]

/-- C7: Out-of-range entries do not influence the result — the series
over the full log set equals the series over the log set restricted to
entries dated inside `[startDate, endDate]`. -/
theorem out_of_range_ignored (s e : Nat) (logs : List LogEntry) (fb : Option ℚ) :
    weightPoints s e logs fb =
      weightPoints s e
        (logs.filter (fun l => match l.date with
          | some d => decide (s ≤ d ∧ d ≤ e)
          | none => false)) fb := by
  apply weightPoints_congr
  intro x hx1 hx2
  rw [anchorWeight_eq_getLast?, anchorWeight_eq_getLast?, List.filter_filter]
  have hpred : ∀ l ∈ logs,
      ((decide (l.date = some x)) &&
        (match l.date with
          | some d => decide (s ≤ d ∧ d ≤ e)
          | none => false)) = decide (l.date = some x) := by
    intro l _
    by_cases hl : l.date = some x
    · rw [hl]
      simp [hx1, hx2]
    · simp [hl]
  rw [List.filter_congr hpred]

/-- C8: Inverted-range boundary — when `startDate > endDate` the day
enumeration is empty and the returned series is empty, for every log set
and fallback. -/
theorem inverted_range_empty (s e : Nat) (logs : List LogEntry) (fb : Option ℚ)
    (h : e < s) : weightPoints s e logs fb = [] := by
  rw [weightPoints_eq]
  have hn : e + 1 - s = 0 := by omega
  rw [hn]
  rfl

/-- Witness for C8 at a concrete input: range `[5, 3]` yields the empty
series even with logs and a fallback present. -/
theorem inverted_range_empty_witness :
    weightPoints 5 3 [⟨some 4, some 70⟩] (some 75) = [] :=
  inverted_range_empty 5 3 [⟨some 4, some 70⟩] (some 75) (by decide)

/-- C9: With an absent fallback and at least one anchored day, the
emitted series is exactly the contiguous run of days from `startDate`
through the last anchored day `N`; every day after `N` is dropped, so
dropped days form a suffix of the range and never an interior gap. -/
theorem dropped_days_form_suffix (s e : Nat) (logs : List LogEntry) (N : Nat)
    (h1 : s ≤ N) (h2 : N ≤ e) (h3 : (anchorWeight logs N).isSome)
    (h4 : ∀ d, N < d → d ≤ e → anchorWeight logs d = none) :
    (weightPoints s e logs none).map PrePoint.date = List.range' s (N + 1 - s) := by
  rw [weightPoints_eq]
  have hsplit : List.range' s (e + 1 - s) =
      List.range' s (N + 1 - s) ++ List.range' (N + 1) (e - N) := by
    have happ := List.range'_append_1 s (N + 1 - s) (e - N)
    rw [show s + (N + 1 - s) = N + 1 by omega] at happ
    rw [happ]
    congr 1
    omega
  rw [hsplit, List.map_append, List.filter_append]
  have hkeep : ((List.range' s (N + 1 - s)).map
      (fun d => PrePoint.mk d (resolvedWeight logs d e none))).filter
        (fun p => p.weight.isSome) =
      (List.range' s (N + 1 - s)).map
        (fun d => PrePoint.mk d (resolvedWeight logs d e none)) := by
    rw [List.filter_eq_self]
    intro p hp
    obtain ⟨d, hd, rfl⟩ := List.mem_map.mp hp
    rw [mem_range1] at hd
    obtain ⟨w, hw⟩ := Option.isSome_iff_exists.mp
      (carrySpecWeight_isSome logs d e N (by omega) h2 h3)
    show (resolvedWeight logs d e none).isSome
    unfold resolvedWeight
    rw [hw]
    rfl
  have hdrop : ((List.range' (N + 1) (e - N)).map
      (fun d => PrePoint.mk d (resolvedWeight logs d e none))).filter
        (fun p => p.weight.isSome) = [] := by
    rw [List.filter_eq_nil_iff]
    intro p hp
    obtain ⟨d, hd, rfl⟩ := List.mem_map.mp hp
    rw [mem_range1] at hd
    have hc : carrySpecWeight logs d e = none :=
      carrySpecWeight_eq_none logs d e (fun x hx1 hx2 => h4 x (by omega) hx2)
    show ¬(resolvedWeight logs d e none).isSome = true
    unfold resolvedWeight
    rw [hc]
    simp
  rw [hkeep, hdrop, List.append_nil, List.map_map]
  have hid : (PrePoint.date ∘ fun d => PrePoint.mk d (resolvedWeight logs d e none)) = id :=
    rfl
  rw [hid, List.map_id]

/-- Witness for C9 at a concrete input: range `[0, 2]` with a single
anchor on day `1` and no fallback emits exactly days `0` and `1`. -/
theorem dropped_days_form_suffix_witness :
    (weightPoints 0 2 [⟨some 1, some 70⟩] none).map PrePoint.date =
      List.range' 0 (1 + 1 - 0) :=
  dropped_days_form_suffix 0 2 [⟨some 1, some 70⟩] 1 (by decide) (by decide) (by decide)
    (fun d hd1 hd2 => by
      have hd : d = 2 := by omega
      subst hd
      decide)

/-- C10: Asymmetric treatment of a zero weight — an anchored log weight
of exactly `0` is a present value: it anchors its day, is carried
backward across an unanchored gap, and is emitted; a fetched profile
weight of exactly `0` is coerced to null by `|| null`, so a day
resolvable only through the fallback is dropped when the profile weight
is `0`. -/
theorem zero_weight_asymmetry :
    (∀ (s e : Nat) (logs : List LogEntry) (fb : Option ℚ) (d : Nat),
      s ≤ d → d ≤ e → anchorWeight logs d = some 0 →
      PrePoint.mk d (some 0) ∈ weightPoints s e logs fb ∧
      (∀ d', s ≤ d' → d' < d → (∀ x, d' ≤ x → x < d → anchorWeight logs x = none) →
        PrePoint.mk d' (some 0) ∈ weightPoints s e logs fb)) ∧
    coerceProfileWeight (some 0) = none ∧
    (∀ (s e : Nat) (logs : List LogEntry) (d : Nat),
      s ≤ d → d ≤ e → carrySpecWeight logs d e = none →
      ∀ p ∈ loadWeightData s e logs (some 0), p.date ≠ d) := by
  refine ⟨?_, by simp [coerceProfileWeight], ?_⟩
  · intro s e logs fb d hd1 hd2 hzero
    have hself : carrySpecWeight logs d e = some 0 := by
      rw [carrySpecWeight_eq_of_nearest logs d e d le_rfl hd2 (by simp [hzero])
        (fun x hx1 hx2 => by omega)]
      exact hzero
    constructor
    · apply mem_weightPoints_of_resolved s e d logs fb hd1 hd2 0
      unfold resolvedWeight
      rw [hself]
    · intro d' hd'1 hd'2 hgap
      have hcarry : carrySpecWeight logs d' e = some 0 := by
        rw [carrySpecWeight_eq_of_nearest logs d' e d (by omega) hd2 (by simp [hzero]) hgap]
        exact hzero
      apply mem_weightPoints_of_resolved s e d' logs fb hd'1 (by omega) 0
      unfold resolvedWeight
      rw [hcarry]
  · intro s e logs d hd1 hd2 hnone
    show ∀ p ∈ weightPoints s e logs (coerceProfileWeight (some 0)), p.date ≠ d
    apply not_mem_weightPoints_of_unresolved s e d logs
    unfold resolvedWeight
    rw [hnone]
    simp [coerceProfileWeight]

/-- Witness for C10 at concrete inputs: an anchored zero on day `1` is
carried to day `0` and emitted; with profile weight `0`, the unresolved
day `0` of the empty-log series is dropped. -/
theorem zero_weight_asymmetry_witness :
    PrePoint.mk 0 (some 0) ∈ weightPoints 0 1 [⟨some 1, some 0⟩] (some 75) ∧
    ∀ p ∈ loadWeightData 0 1 [] (some 0), p.date ≠ 0 := by
  constructor
  · exact (zero_weight_asymmetry.1 0 1 [⟨some 1, some 0⟩] (some 75) 1
      (by decide) (by decide) (by decide)).2 0 (by decide) (by decide)
      (fun x hx1 hx2 => by
        have hx : x = 0 := by omega
        subst hx
        decide)
  · exact zero_weight_asymmetry.2.2 0 1 [] 0 (by decide) (by decide) (by decide)
